import Mathlib

/-!
Verification of the loss-minimization core of the notebook
`bayesian-methods-ml-decision-theory.ipynb`.

Machine floats are modelled as exact rationals (`ℚ`); numpy arrays as
`List ℚ`.  Each definition below is a shallow embedding of the
corresponding notebook cell, keeping the source's names.
-/

/-- `np.sign`: `1` on positives, `-1` on negatives, `0` at zero. -/
def npSign (x : ℚ) : ℚ :=
  if 0 < x then 1 else if x < 0 then -1 else 0

/-- Embedding of the notebook's scalar loss:
```
def stock_loss(true_return, prediction, alpha=100.):
    if true_return*prediction < 0:
        return alpha*prediction**2 -np.sign(true_return)*prediction + np.abs(true_return)
    else:
        return np.abs(true_return - prediction)
``` -/
def stock_loss (true_return prediction : ℚ) (alpha : ℚ := 100) : ℚ :=
  if true_return * prediction < 0 then
    alpha * prediction ^ 2 - npSign true_return * prediction + |true_return|
  else
    |true_return - prediction|

/-- Embedding of the notebook's vectorised loss (note the different default
`alpha=500.`), with the boolean mask `ix = true_return*prediction < 0` made
explicit and each position written exactly once, by `loss[ix] = ...` when the
mask holds and by `loss[~ix] = ...` otherwise:
```
def vectorised_stock_loss(true_return, prediction, alpha=500.):
    loss = np.zeros_like(true_return)
    ix = true_return*prediction < 0
    loss[ix] = alpha*prediction**2 - np.sign(true_return[ix])*prediction + np.abs(true_return[ix])
    loss[~ix] = np.abs(true_return[~ix] - prediction)
    return loss
``` -/
def vectorised_stock_loss (true_return : List ℚ) (prediction : ℚ)
    (alpha : ℚ := 500) : List ℚ :=
  let ix : List Bool := true_return.map (fun t => decide (t * prediction < 0))
  List.zipWith
    (fun t b =>
      if b then alpha * prediction ^ 2 - npSign t * prediction + |t|
      else |t - prediction|)
    true_return ix

/-- `np.mean` of a float array: sum divided by length; on the empty array the
division `0/0` yields NaN, modelled as `none`. -/
def npMean (l : List ℚ) : Option ℚ :=
  if l.isEmpty then none else some (l.sum / l.length)

/-- Embedding of `returns_population = lambda signal: a_samples + b_samples*signal + noise`.
The noise vector is a fixed argument: in the notebook it is drawn once, in a
cell executed before the minimization loop, and captured by the lambda. -/
def returns_population (a_samples b_samples noise : List ℚ) (signal : ℚ) :
    List ℚ :=
  List.zipWith (· + ·)
    (List.zipWith (fun a b => a + b * signal) a_samples b_samples) noise

/-- Embedding of the objective built inside the minimization loop:
`exp_value = lambda pred: vectorised_stock_loss(returns_population(signal), pred).mean()`
(the vectorised loss is called with its default `alpha = 500`). -/
def exp_value (a_samples b_samples noise : List ℚ) (signal pred : ℚ) :
    Option ℚ :=
  npMean (vectorised_stock_loss (returns_population a_samples b_samples noise signal) pred)

/-- Embedding of the minimization loop
```
for i, signal in tqdm(enumerate(signals)):
    exp_value = lambda pred: vectorised_stock_loss(returns_population(signal), pred).mean()
    opt_predictions[i] = fmin(exp_value, 0, disp=False)
```
`scipy.optimize.fmin` is an external numerical routine, taken as an abstract
argument `fmin : (ℚ → Option ℚ) → ℚ → ℚ` (objective, initial guess). -/
def opt_predictions (fmin : (ℚ → Option ℚ) → ℚ → ℚ)
    (a_samples b_samples noise signals : List ℚ) : List ℚ :=
  signals.map (fun signal => fmin (fun pred => exp_value a_samples b_samples noise signal pred) 0)

/-- Embedding of `burned_trace = trace[20000:]`, the trace being an ordered
sequence of `(a, b, sigma)` parameter draws. -/
def burned_trace (trace : List (ℚ × ℚ × ℚ)) : List (ℚ × ℚ × ℚ) :=
  trace.drop 20000

/-- `np.linspace(start, stop, num)`: `num` evenly spaced points,
`start + i*(stop-start)/(num-1)` (exact arithmetic, endpoint included). -/
def linspace (start stop : ℚ) (num : ℕ) : List ℚ :=
  (List.range num).map
    (fun (i : ℕ) => start + (stop - start) * (i : ℚ) / ((num : ℚ) - 1))

/-- `ndarray.min()` of a float array: fold of binary `min` over the elements
(junk value `0` on the empty array, where numpy raises). -/
def npMin (l : List ℚ) : ℚ :=
  match l with
  | [] => 0
  | x :: xs => xs.foldl min x

/-- `ndarray.max()`, analogously. -/
def npMax (l : List ℚ) : ℚ :=
  match l with
  | [] => 0
  | x :: xs => xs.foldl max x

/-- Embedding of `signals = np.linspace(X.min(), X.max(), 50)`. -/
def signals (X : List ℚ) : List ℚ :=
  linspace (npMin X) (npMax X) 50

/- ---------------------------------------------------------------- -/
/- Helper lemmas (shared across claims).                             -/
/- ---------------------------------------------------------------- -/

lemma npSign_eq_sign (x : ℚ) : npSign x = (SignType.sign x : ℚ) := by
  rcases lt_trichotomy x 0 with h | h | h
  · simp [npSign, h, not_lt.mpr h.le, sign_neg h]
  · simp [npSign, h]
  · simp [npSign, h, sign_pos h]

lemma stock_loss_pos_of_opposite (t p α : ℚ) (hα : 0 < α) (h : t * p < 0) :
    0 < stock_loss t p α := by
  have hp : p ≠ 0 := by
    rintro rfl; simp at h
  have hp2 : 0 < α * p ^ 2 := by positivity
  have hsign : 0 < -npSign t * p := by
    rcases mul_neg_iff.mp h with ⟨ht, hple⟩ | ⟨htle, hpos⟩
    · have hs : npSign t = 1 := by simp [npSign, ht]
      rw [hs]; nlinarith
    · have hs : npSign t = -1 := by simp [npSign, not_lt.mpr htle.le, htle]
      rw [hs]; nlinarith
  have habs : (0:ℚ) ≤ |t| := abs_nonneg t
  simp only [stock_loss, h, if_pos]
  nlinarith

lemma stock_loss_nonneg_aux (t p α : ℚ) (hα : 0 < α) : 0 ≤ stock_loss t p α := by
  by_cases h : t * p < 0
  · exact (stock_loss_pos_of_opposite t p α hα h).le
  · simp only [stock_loss, h, if_neg, not_false_iff]
    exact abs_nonneg _

lemma vectorised_stock_loss_eq_map (tr : List ℚ) (p α : ℚ) :
    vectorised_stock_loss tr p α = tr.map (fun t => stock_loss t p α) := by
  induction tr with
  | nil => rfl
  | cons t ts ih =>
    simp only [vectorised_stock_loss, List.map_cons, List.zipWith_cons_cons] at ih ⊢
    refine congrArg₂ _ ?_ ih
    by_cases h : t * p < 0 <;> simp [stock_loss, h]

/-- `returns_population` on three conses. -/
lemma returns_population_cons (a ν b : ℚ) (as bs νs : List ℚ) (s : ℚ) :
    returns_population (a :: as) (b :: bs) (ν :: νs) s =
      (a + b * s + ν) :: returns_population as bs νs s := rfl

lemma returns_population_length (a b ν : List ℚ) (s : ℚ) :
    (returns_population a b ν s).length =
      min (min a.length b.length) ν.length := by
  simp [returns_population]

lemma returns_population_getD (a b ν : List ℚ) (s : ℚ) (i : ℕ)
    (h : i < (returns_population a b ν s).length) :
    (returns_population a b ν s).getD i 0 =
      a.getD i 0 + b.getD i 0 * s + ν.getD i 0 := by
  induction a generalizing b ν i with
  | nil => simp [returns_population] at h
  | cons x xs ih =>
    cases b with
    | nil => simp [returns_population] at h
    | cons y ys =>
      cases ν with
      | nil => simp [returns_population] at h
      | cons z zs =>
        rw [returns_population_cons] at h ⊢
        cases i with
        | zero => simp
        | succ j =>
          simp only [List.getD_cons_succ]
          exact ih ys zs j (by simpa using h)

lemma list_getD_map {α β : Type} (f : α → β) (l : List α) (i : ℕ)
    (dα : α) (dβ : β) (h : i < l.length) :
    (l.map f).getD i dβ = f (l.getD i dα) := by
  induction l generalizing i with
  | nil => simp at h
  | cons x xs ih =>
    cases i with
    | zero => simp
    | succ j =>
      simp only [List.map_cons, List.getD_cons_succ]
      exact ih j (by simpa using h)

lemma list_getD_range (n i : ℕ) (d : ℕ) (h : i < n) :
    (List.range n).getD i d = i := by
  rw [List.getD_eq_getElem _ _ (by simpa using h)]
  simp

lemma linspace_getD (start stop : ℚ) (num i : ℕ) (h : i < num) :
    (linspace start stop num).getD i 0 =
      start + (stop - start) * i / ((num : ℚ) - 1) := by
  unfold linspace
  rw [list_getD_map (fun j : ℕ => start + (stop - start) * (j : ℚ) / ((num : ℚ) - 1))
      (List.range num) i 0 0 (by simpa using h),
    list_getD_range num i 0 h]

lemma foldl_min_le_init (xs : List ℚ) (x : ℚ) : xs.foldl min x ≤ x := by
  induction xs generalizing x with
  | nil => simp
  | cons y ys ih =>
    calc (y :: ys).foldl min x = ys.foldl min (min x y) := rfl
    _ ≤ min x y := ih _
    _ ≤ x := min_le_left _ _

lemma foldl_min_le_mem (xs : List ℚ) (x y : ℚ) (hy : y ∈ xs) :
    xs.foldl min x ≤ y := by
  induction xs generalizing x with
  | nil => simp at hy
  | cons z zs ih =>
    rcases List.mem_cons.mp hy with rfl | hy
    · calc (y :: zs).foldl min x = zs.foldl min (min x y) := rfl
      _ ≤ min x y := foldl_min_le_init _ _
      _ ≤ y := min_le_right _ _
    · exact ih (min x z) hy

lemma foldl_min_mem (xs : List ℚ) (x : ℚ) :
    xs.foldl min x = x ∨ xs.foldl min x ∈ xs := by
  induction xs generalizing x with
  | nil => simp
  | cons y ys ih =>
    rcases ih (min x y) with h | h
    · rcases min_cases x y with ⟨he, _⟩ | ⟨he, _⟩
      · left; rw [show (y :: ys).foldl min x = ys.foldl min (min x y) from rfl, h, he]
      · right; rw [show (y :: ys).foldl min x = ys.foldl min (min x y) from rfl, h, he]
        exact List.mem_cons_self _ _
    · right
      exact List.mem_cons_of_mem _ h

lemma init_le_foldl_max (xs : List ℚ) (x : ℚ) : x ≤ xs.foldl max x := by
  induction xs generalizing x with
  | nil => simp
  | cons y ys ih =>
    calc x ≤ max x y := le_max_left _ _
    _ ≤ ys.foldl max (max x y) := ih _
    _ = (y :: ys).foldl max x := rfl

lemma mem_le_foldl_max (xs : List ℚ) (x y : ℚ) (hy : y ∈ xs) :
    y ≤ xs.foldl max x := by
  induction xs generalizing x with
  | nil => simp at hy
  | cons z zs ih =>
    rcases List.mem_cons.mp hy with rfl | hy
    · calc y ≤ max x y := le_max_right _ _
      _ ≤ zs.foldl max (max x y) := init_le_foldl_max _ _
      _ = (y :: zs).foldl max x := rfl
    · exact ih (max x z) hy

lemma foldl_max_mem (xs : List ℚ) (x : ℚ) :
    xs.foldl max x = x ∨ xs.foldl max x ∈ xs := by
  induction xs generalizing x with
  | nil => simp
  | cons y ys ih =>
    rcases ih (max x y) with h | h
    · rcases max_cases x y with ⟨he, _⟩ | ⟨he, _⟩
      · left; rw [show (y :: ys).foldl max x = ys.foldl max (max x y) from rfl, h, he]
      · right; rw [show (y :: ys).foldl max x = ys.foldl max (max x y) from rfl, h, he]
        exact List.mem_cons_self _ _
    · right
      exact List.mem_cons_of_mem _ h

lemma npMin_mem (l : List ℚ) (h : l ≠ []) : npMin l ∈ l := by
  match l with
  | x :: xs =>
    rcases foldl_min_mem xs x with he | he
    · rw [npMin, he]; exact List.mem_cons_self _ _
    · exact List.mem_cons_of_mem _ he

lemma npMin_le (l : List ℚ) (y : ℚ) (hy : y ∈ l) : npMin l ≤ y := by
  match l with
  | x :: xs =>
    rcases List.mem_cons.mp hy with rfl | hy
    · exact foldl_min_le_init xs y
    · exact foldl_min_le_mem xs x y hy

lemma npMax_mem (l : List ℚ) (h : l ≠ []) : npMax l ∈ l := by
  match l with
  | x :: xs =>
    rcases foldl_max_mem xs x with he | he
    · rw [npMax, he]; exact List.mem_cons_self _ _
    · exact List.mem_cons_of_mem _ he

lemma le_npMax (l : List ℚ) (y : ℚ) (hy : y ∈ l) : y ≤ npMax l := by
  match l with
  | x :: xs =>
    rcases List.mem_cons.mp hy with rfl | hy
    · exact init_le_foldl_max xs y
    · exact mem_le_foldl_max xs x y hy

/- ---------------------------------------------------------------- -/
/- Claim theorems.                                                   -/
/- ---------------------------------------------------------------- -/

/-- C1: for every `true_value`, `prediction` and `alpha > 0`, the scalar loss
returns `alpha*prediction^2 - sign(true_value)*prediction + |true_value|`
exactly when `true_value*prediction < 0` and `|true_value - prediction|`
otherwise; in particular at `true_value = 0` (or `prediction = 0`) the strict
test fails and the result is the absolute difference, so
`stock_loss 0 p = |p|` and `stock_loss t 0 = |t|`. -/
theorem stock_loss_branch_formulas (t p α : ℚ) (_hα : 0 < α) :
    (t * p < 0 →
      stock_loss t p α = α * p ^ 2 - (SignType.sign t : ℚ) * p + |t|) ∧
    (¬ t * p < 0 → stock_loss t p α = |t - p|) ∧
    stock_loss 0 p α = |p| ∧ stock_loss t 0 α = |t| := by
  refine ⟨fun h => ?_, fun h => ?_, ?_, ?_⟩
  · rw [stock_loss, if_pos h, npSign_eq_sign]
  · rw [stock_loss, if_neg h]
  · rw [stock_loss, if_neg (by simp), zero_sub, abs_neg]
  · rw [stock_loss, if_neg (by simp), sub_zero]

theorem stock_loss_branch_formulas_witness :
    ((0:ℚ) < 1) ∧
    ((1 * (-1) < (0:ℚ) →
      stock_loss 1 (-1) 1 = 1 * (-1) ^ 2 - (SignType.sign (1:ℚ) : ℚ) * (-1) + |(1:ℚ)|) ∧
    (¬ (1:ℚ) * (-1) < 0 → stock_loss 1 (-1) 1 = |(1:ℚ) - (-1)|) ∧
    stock_loss 0 (-1) 1 = |(-1:ℚ)| ∧ stock_loss 1 0 1 = |(1:ℚ)|) :=
  ⟨by norm_num, stock_loss_branch_formulas 1 (-1) 1 (by norm_num)⟩

/-- C2: the noise vector is a fixed sequence, drawn before the minimization
loop and reused unchanged for every signal; equivalently, for any two signals
`s1, s2` and any index `i` in range, the populations differ exactly by
`b_i * (s1 - s2)`, with no signal-dependent noise term. -/
theorem noise_reused_across_signals (a b ν : List ℚ) (s1 s2 : ℚ) (i : ℕ)
    (h : i < (returns_population a b ν s1).length) :
    (returns_population a b ν s1).getD i 0 -
      (returns_population a b ν s2).getD i 0 = b.getD i 0 * (s1 - s2) := by
  have h2 : i < (returns_population a b ν s2).length := by
    rw [returns_population_length] at h ⊢; exact h
  rw [returns_population_getD a b ν s1 i h, returns_population_getD a b ν s2 i h2]
  ring

theorem noise_reused_across_signals_witness :
    (returns_population [1] [2] [3] 4).getD 0 0 -
      (returns_population [1] [2] [3] 7).getD 0 0 =
      ([2] : List ℚ).getD 0 0 * (4 - 7) :=
  noise_reused_across_signals [1] [2] [3] 4 7 0 (by decide)

/-- C3: the vectorised loss equals the element-wise application of the scalar
loss at the same `alpha` — a same-length sequence whose `i`-th element is
`stock_loss true_values[i] prediction alpha` — and on the empty input it
returns the empty sequence. -/
theorem vectorised_loss_eq_map_scalar (tr : List ℚ) (p α : ℚ) :
    vectorised_stock_loss tr p α = tr.map (fun t => stock_loss t p α) ∧
    (vectorised_stock_loss tr p α).length = tr.length ∧
    vectorised_stock_loss [] p α = [] := by
  refine ⟨vectorised_stock_loss_eq_map tr p α, ?_, rfl⟩
  rw [vectorised_stock_loss_eq_map tr p α, List.length_map]

/-- C4, counterexample: the claimed negative-loss inputs do not exist — there
are no `true_value`, `prediction` of strictly opposite sign and `alpha > 0`
making `stock_loss` negative. -/
theorem loss_negative_existence_false :
    ¬ ∃ t p α : ℚ, t * p < 0 ∧ 0 < α ∧ stock_loss t p α < 0 := by
  rintro ⟨t, p, α, h, hα, hneg⟩
  exact absurd hneg (not_lt.mpr (stock_loss_pos_of_opposite t p α hα h).le)

/-- C4, amended: for every `alpha > 0` the loss is nonnegative (the
opposite-sign quadratic branch is even strictly positive), so the stated
`ℝ≥0` return contract does hold. -/
theorem stock_loss_nonneg_for_pos_alpha (t p α : ℚ) (hα : 0 < α) :
    0 ≤ stock_loss t p α ∧ (t * p < 0 → 0 < stock_loss t p α) :=
  ⟨stock_loss_nonneg_aux t p α hα, fun h => stock_loss_pos_of_opposite t p α hα h⟩

theorem stock_loss_nonneg_for_pos_alpha_witness :
    ((0:ℚ) < 100) ∧
    (0 ≤ stock_loss 1 (-1) 100 ∧ ((1:ℚ) * (-1) < 0 → 0 < stock_loss 1 (-1) 100)) :=
  ⟨by norm_num, stock_loss_nonneg_for_pos_alpha 1 (-1) 100 (by norm_num)⟩

/-- C5, counterexample: handed the empty outcome population (empty burned
trace), the minimizer's objective evaluates normally to the NaN marker
`none` — `np.mean` of the empty array — instead of rejecting with an explicit
precondition error: no emptiness check exists anywhere on this code path. -/
theorem empty_population_mean_is_nan :
    exp_value [] [] [] 0 0 = none ∧
    returns_population [] [] [] 0 = [] ∧ npMean [] = none := by
  exact ⟨rfl, rfl, rfl⟩

/-- C5, amended: when the outcome population is empty, the code performs no
precondition check and raises no error; the objective's empirical mean is
undefined (NaN, modelled `none`) for every prediction, and this NaN objective
is what the minimizer receives. -/
theorem exp_value_empty_population_none (a b ν : List ℚ) (s p : ℚ)
    (h : returns_population a b ν s = []) :
    exp_value a b ν s p = none := by
  rw [exp_value, h]
  rfl

theorem exp_value_empty_population_none_witness :
    exp_value [] [] [] 0 0 = none :=
  exp_value_empty_population_none [] [] [] 0 0 rfl

/-- C6: the minimization is applied independently once per Signal Grid entry,
each time starting from initial guess `0` with objective
`fun r => mean of stock_loss population[i] r 500` over that signal's outcome
population; the resulting array has exactly one entry per grid entry, in the
same order. -/
theorem minimization_per_signal_structure (fmin : (ℚ → Option ℚ) → ℚ → ℚ)
    (a b ν sigs : List ℚ) (i : ℕ) (h : i < sigs.length) :
    (opt_predictions fmin a b ν sigs).length = sigs.length ∧
    (opt_predictions fmin a b ν sigs).getD i 0 =
      fmin (fun r => exp_value a b ν (sigs.getD i 0) r) 0 ∧
    (∀ s r : ℚ, exp_value a b ν s r =
      npMean ((returns_population a b ν s).map (fun t => stock_loss t r 500))) := by
  refine ⟨by simp [opt_predictions], ?_, ?_⟩
  · exact list_getD_map _ sigs i 0 0 h
  · intro s r
    rw [exp_value, vectorised_stock_loss_eq_map]

theorem minimization_per_signal_structure_witness :
    (opt_predictions (fun _f x0 => x0) [1] [2] [3] [5]).length = ([5] : List ℚ).length ∧
    (opt_predictions (fun _f x0 => x0) [1] [2] [3] [5]).getD 0 0 =
      (fun _f x0 => x0) (fun r => exp_value [1] [2] [3] (([5] : List ℚ).getD 0 0) r) 0 ∧
    (∀ s r : ℚ, exp_value [1] [2] [3] s r =
      npMean ((returns_population [1] [2] [3] s).map (fun t => stock_loss t r 500))) :=
  minimization_per_signal_structure (fun _f x0 => x0) [1] [2] [3] [5] 0 (by decide)

/-- C7: for every signal `x`, the posterior-predictive population has the
same length as the (burned) trace, and its `i`-th element is
`a_i + b_i * x + noise_i` from the `i`-th parameter and noise draws. -/
theorem returns_population_pointwise (a b ν : List ℚ) (n : ℕ) (x : ℚ)
    (ha : a.length = n) (hb : b.length = n) (hν : ν.length = n) :
    (returns_population a b ν x).length = n ∧
    (∀ i, i < n → (returns_population a b ν x).getD i 0 =
      a.getD i 0 + b.getD i 0 * x + ν.getD i 0) := by
  have hlen : (returns_population a b ν x).length = n := by
    rw [returns_population_length, ha, hb, hν]
    simp
  exact ⟨hlen, fun i hi => returns_population_getD a b ν x i (by rw [hlen]; exact hi)⟩

theorem returns_population_pointwise_witness :
    (returns_population [1, 2] [3, 4] [5, 6] 10).length = 2 ∧
    (∀ i, i < 2 → (returns_population [1, 2] [3, 4] [5, 6] 10).getD i 0 =
      ([1, 2] : List ℚ).getD i 0 + ([3, 4] : List ℚ).getD i 0 * 10 +
        ([5, 6] : List ℚ).getD i 0) :=
  returns_population_pointwise [1, 2] [3, 4] [5, 6] 2 10 rfl rfl rfl

lemma list_getD_drop {α : Type} (l : List α) (n i : ℕ) (d : α) :
    (l.drop n).getD i d = l.getD (n + i) d := by
  induction l generalizing n with
  | nil => simp
  | cons x xs ih =>
    cases n with
    | zero => simp
    | succ m =>
      rw [List.drop_succ_cons, ih m, show m + 1 + i = (m + i) + 1 by omega,
        List.getD_cons_succ]

/-- C8: burn-in trimming discards exactly the fixed-size prefix of the
first 20000 draws — 20% of the 100000-draw reference run — so the burned
trace is the corresponding suffix of the full trace and its length is the
number of draws minus the burn-in count. -/
theorem burn_in_suffix (trace : List (ℚ × ℚ × ℚ)) (h : trace.length = 100000) :
    (burned_trace trace).length = trace.length - 20000 ∧
    (burned_trace trace).length = 80000 ∧
    trace.take 20000 ++ burned_trace trace = trace ∧
    (∀ i, i < 80000 →
      (burned_trace trace).getD i (0, 0, 0) = trace.getD (20000 + i) (0, 0, 0)) ∧
    trace.length * 20 / 100 = 20000 := by
  refine ⟨by simp [burned_trace], by simp [burned_trace, h], ?_, ?_, by rw [h]⟩
  · exact List.take_append_drop 20000 trace
  · intro i _
    exact list_getD_drop trace 20000 i (0, 0, 0)

theorem burn_in_suffix_witness :
    (burned_trace (List.replicate 100000 ((0:ℚ), (0:ℚ), (0:ℚ)))).length =
      (List.replicate 100000 ((0:ℚ), (0:ℚ), (0:ℚ))).length - 20000 ∧
    (burned_trace (List.replicate 100000 ((0:ℚ), (0:ℚ), (0:ℚ)))).length = 80000 ∧
    (List.replicate 100000 ((0:ℚ), (0:ℚ), (0:ℚ))).take 20000 ++
      burned_trace (List.replicate 100000 ((0:ℚ), (0:ℚ), (0:ℚ))) =
      List.replicate 100000 ((0:ℚ), (0:ℚ), (0:ℚ)) ∧
    (∀ i, i < 80000 →
      (burned_trace (List.replicate 100000 ((0:ℚ), (0:ℚ), (0:ℚ)))).getD i (0, 0, 0) =
        (List.replicate 100000 ((0:ℚ), (0:ℚ), (0:ℚ))).getD (20000 + i) (0, 0, 0)) ∧
    (List.replicate 100000 ((0:ℚ), (0:ℚ), (0:ℚ))).length * 20 / 100 = 20000 :=
  burn_in_suffix (List.replicate 100000 ((0:ℚ), (0:ℚ), (0:ℚ)))
    (by rw [List.length_replicate])

/-- C9: for a non-empty observed signal list, the Signal Grid is the
deterministic sequence of 50 evenly spaced values from the observed minimum
to the observed maximum: length 50, first element `X.min()`, last element
`X.max()`, all consecutive differences equal to `(max - min)/49`, where
`npMin X`/`npMax X` are genuinely the minimum/maximum of the observations. -/
theorem signal_grid_spec (X : List ℚ) (h : X ≠ []) :
    (signals X).length = 50 ∧
    (signals X).getD 0 0 = npMin X ∧
    (signals X).getD 49 0 = npMax X ∧
    (∀ i, i + 1 < 50 →
      (signals X).getD (i + 1) 0 - (signals X).getD i 0 =
        (npMax X - npMin X) / 49) ∧
    npMin X ∈ X ∧ (∀ y ∈ X, npMin X ≤ y) ∧
    npMax X ∈ X ∧ (∀ y ∈ X, y ≤ npMax X) := by
  refine ⟨by simp [signals, linspace], ?_, ?_, ?_, npMin_mem X h, npMin_le X,
    npMax_mem X h, le_npMax X⟩
  · rw [signals, linspace_getD _ _ 50 0 (by norm_num)]
    norm_num
  · rw [signals, linspace_getD _ _ 50 49 (by norm_num)]
    norm_num
  · intro i hi
    rw [signals, linspace_getD _ _ 50 (i + 1) hi,
      linspace_getD _ _ 50 i (by omega)]
    have h49 : ((50:ℚ) - 1) = 49 := by norm_num
    push_cast
    rw [h49]
    field_simp
    ring

theorem signal_grid_spec_witness :
    (signals [3, 1, 2]).length = 50 ∧
    (signals [3, 1, 2]).getD 0 0 = npMin [3, 1, 2] ∧
    (signals [3, 1, 2]).getD 49 0 = npMax [3, 1, 2] ∧
    (∀ i, i + 1 < 50 →
      (signals [3, 1, 2]).getD (i + 1) 0 - (signals [3, 1, 2]).getD i 0 =
        (npMax [3, 1, 2] - npMin [3, 1, 2]) / 49) ∧
    npMin [3, 1, 2] ∈ ([3, 1, 2] : List ℚ) ∧
    (∀ y ∈ ([3, 1, 2] : List ℚ), npMin [3, 1, 2] ≤ y) ∧
    npMax [3, 1, 2] ∈ ([3, 1, 2] : List ℚ) ∧
    (∀ y ∈ ([3, 1, 2] : List ℚ), y ≤ npMax [3, 1, 2]) :=
  signal_grid_spec [3, 1, 2] (by decide)

/-- C10: the scalar and vectorised losses carry different default `alpha`
(100 vs 500): called with their defaults on a strictly-opposite-sign pair the
vectorised result exceeds the scalar one by exactly `400*prediction^2` (hence
differs, since the quadratic branch forces `prediction ≠ 0`), while on
same-sign (non-quadratic-branch) inputs the two defaults agree. -/
theorem default_alpha_mismatch (t p : ℚ) :
    (t * p < 0 →
      vectorised_stock_loss [t] p = [stock_loss t p + 400 * p ^ 2] ∧
      stock_loss t p + 400 * p ^ 2 ≠ stock_loss t p) ∧
    (¬ t * p < 0 → vectorised_stock_loss [t] p = [stock_loss t p]) := by
  constructor
  · intro h
    have hp : p ≠ 0 := by rintro rfl; simp at h
    constructor
    · rw [vectorised_stock_loss_eq_map, List.map_singleton]
      simp only [stock_loss, h, if_pos]
      norm_num
      ring
    · intro heq
      have hp2 : (0:ℚ) < 400 * p ^ 2 := by positivity
      nlinarith [heq]
  · intro h
    rw [vectorised_stock_loss_eq_map, List.map_singleton]
    simp [stock_loss, h]

theorem default_alpha_mismatch_witness :
    vectorised_stock_loss [(1:ℚ)] (-1) = [stock_loss 1 (-1) + 400 * (-1) ^ 2] ∧
    stock_loss (1:ℚ) (-1) + 400 * (-1) ^ 2 ≠ stock_loss 1 (-1) :=
  (default_alpha_mismatch 1 (-1)).1 (by norm_num)
